import Mathlib

/-!
Verification of the comment-tree builder, tree renderer, session state
machine and fetch-collaborator post-processing of reddit-stream-console.

The Go sources embedded here are `internal/app/app.go` (tree builder
`buildCommentTree`, renderer `renderComments` / `wrapWithPrefix`, bubbletea
`Model.Update` / `handleCommentsKeys`) and `internal/reddit/client.go`
(`FindThreads`, `processComment`) with the types of `internal/reddit`.

Modelling conventions:
- Go strings are Lean `String`s; `strings.TrimSpace` is `String.trim`,
  `strings.ToLower` is `String.toLower`, `strings.Split(s, "\n")` is
  `String.splitOn`, `strings.Fields` splits on `Char.isWhitespace`.
- `lipgloss` styling is the identity on text: `Style.Render` only adds ANSI
  escapes, which contribute no visible columns, so visible width
  (`lipgloss.Width`) is modelled as `String.length` and byte positions
  (`len`, `strings.TrimPrefix`) coincide with character positions for the
  ASCII tree prefixes used by the renderer.
- Go `float64` timestamps are modelled as `Int` (no claim depends on float
  semantics); machine `int` is `Int`.
- Pointer-based mutation in `buildCommentTree` (the `id -> *commentNode`
  map whose nodes have their `children` slices appended to in the second
  pass) is represented functionally: nodes are indices into the filtered
  input list `order`, the map lookup is `lookupIdx` (last insertion wins,
  as for a Go map filled in input order), and the final `children` slice of
  node `j` is the increasing list of indices classified as children of `j`.
- The renderer's recursion is given explicit fuel `order.length`; a walk
  that starts from the builder's roots descends a functional-parent graph,
  so every path from a root is simple and reaches depth at most
  `order.length - 1`, hence the fuel is never exhausted and the model
  computes exactly what the unbounded Go recursion computes.
-/

namespace RSC

/-- `reddit.Comment` (types.go): one comment record as delivered by the
fetch collaborator. -/
structure Comment where
  id : String
  author : String
  body : String
  createdUTC : Int
  formattedTime : String
  score : Int
  depth : Int
  parentID : String
deriving DecidableEq, Repr

/-- Placeholder record used to total out-of-range index lookups; never
reachable from the theorems' hypotheses. -/
def defaultComment : Comment :=
  ⟨"", "", "", 0, "", 0, 0, ""⟩

/-- `strings.TrimSpace`: drop whitespace from both ends (structural model
of `String.trim`). -/
def strTrim (s : String) : String :=
  ⟨((s.data.dropWhile Char.isWhitespace).reverse.dropWhile Char.isWhitespace).reverse⟩

/-- `strings.ToLower` (ASCII case folding suffices for the claims). -/
def strToLower (s : String) : String :=
  ⟨s.data.map Char.toLower⟩

/-- `strings.Split(text, sep)` for a one-character separator (structural
model of `String.splitOn`): always returns at least one group. -/
def splitChar (sep : Char) : List Char → List (List Char)
  | [] => [[]]
  | c :: rest =>
    match splitChar sep rest with
    | [] => if c = sep then [[], []] else [[c]]
    | g :: gs => if c = sep then [] :: g :: gs else (c :: g) :: gs

/-- The paragraphs of a body: `strings.Split(text, "\n")`. -/
def splitLines (text : String) : List String :=
  (splitChar '\n' text.data).map (fun g => (⟨g⟩ : String))

/-- `strings.Fields`: the maximal runs of non-whitespace characters. -/
def fields (text : String) : List String :=
  ((splitChar ' ' (text.data.map (fun c => if c.isWhitespace then ' ' else c))).map
      (fun g => (⟨g⟩ : String))).filter (fun w => w ≠ "")

/-- `strings.Contains(s, sub)`: some (possibly empty) substring of `s`
equals `sub`; scans every start position. -/
def strContains (s sub : String) : Bool :=
  go s.data sub.data
where
  go : List Char → List Char → Bool
    | s, sub =>
      match s with
      | [] => sub.isEmpty
      | _ :: rest => sub.isPrefixOf s || go rest sub

/-- `strings.HasPrefix`. -/
def strHasPrefix (s pre : String) : Bool :=
  pre.data.isPrefixOf s.data

/-- `strings.TrimPrefix`. -/
def trimPrefixStr (s pre : String) : String :=
  if strHasPrefix s pre then ⟨s.data.drop pre.data.length⟩ else s

/-- The filter test inlined in `buildCommentTree` (app.go:721-728): with a
non-empty lowered filter a record is kept iff the filter occurs in the
lowercased author or the lowercased body. -/
def keepsComment (filterLower : String) (c : Comment) : Bool :=
  if filterLower = "" then true
  else strContains (strToLower c.author) filterLower || strContains (strToLower c.body) filterLower

/-- The `order` list of `buildCommentTree`: records surviving the filter,
in input order. -/
def filteredComments (comments : List Comment) (filterLower : String) : List Comment :=
  comments.filter (keepsComment filterLower)

/-- Lookup in the `nodes` map of `buildCommentTree`: the map is filled in
input order, later inserts overwrite, so `nodes[pid]` is the node of the
last surviving record whose id is `pid`. -/
def lookupIdx : List Comment → String → Option Nat
  | [], _ => none
  | c :: rest, pid =>
    match lookupIdx rest pid with
    | some j => some (j + 1)
    | none => if c.id = pid then some 0 else none

/-- Parent resolution of `buildCommentTree`'s second pass (app.go:735-747)
for the node at index `i` of `order`: `none` when the trimmed parent id is
empty or absent from the map (the node becomes a root), `some j` when the
map resolves it to node `j`. -/
def parentIdx (order : List Comment) (i : Nat) : Option Nat :=
  match order.get? i with
  | none => none
  | some c =>
    let pid := strTrim c.parentID
    if pid = "" then none else lookupIdx order pid

/-- The final `children` slice of node `k`: the second pass appends each
child in input order, so it is the increasing list of indices whose parent
resolves to `k`. -/
def childIdxs (order : List Comment) (k : Nat) : List Nat :=
  (List.range order.length).filter (fun i => parentIdx order i == some k)

/-- The `roots` slice: indices appended as roots, in input order. -/
def rootIdxs (order : List Comment) : List Nat :=
  (List.range order.length).filter (fun i => parentIdx order i == none)

/-- The forest returned by `buildCommentTree`: the surviving records
(`order`), the root indices and the children lists. -/
structure CommentForest where
  order : List Comment
  roots : List Nat
  children : Nat → List Nat

/-- `buildCommentTree(comments, filterLower)` (app.go:717-749). -/
def buildCommentTree (comments : List Comment) (filterLower : String) : CommentForest :=
  let order := filteredComments comments filterLower
  ⟨order, rootIdxs order, childIdxs order⟩

/-- Depth-first pre-order visit of the subtree rooted at node `i`, with
fuel; fuel `order.length` is never exhausted when starting from the
builder's roots (paths from roots are simple). -/
def dfsNode (order : List Comment) : Nat → Nat → List Nat
  | 0, i => [i]
  | fuel + 1, i => i :: (childIdxs order i).flatMap (fun c => dfsNode order fuel c)

/-- Depth-first pre-order of the whole forest, as walked by
`renderComments`'s `walk` (app.go:644-669). -/
def dfsForest (f : CommentForest) : List Nat :=
  f.roots.flatMap (fun r => dfsNode f.order f.order.length r)

/-- The sequence of records visited by the depth-first pre-order traversal
of the built forest. -/
def preorderComments (comments : List Comment) (filterLower : String) : List Comment :=
  let f := buildCommentTree comments filterLower
  (dfsForest f).map (fun i => f.order.getD i defaultComment)

/-- The `t`-th strict-ancestor step along resolved parent links: `none`
once the chain has ended (a root, an unresolved parent, or an index out of
range). -/
def iterPar (order : List Comment) : Nat → Nat → Option Nat
  | 0, i => some i
  | t + 1, i =>
    match parentIdx order i with
    | none => none
    | some j => iterPar order t j

/-- `m`'s resolved-parent chain reaches `k` within `fuel` steps (so `m`
lies in the subtree of `k` in the built forest). -/
def descB (order : List Comment) : Nat → Nat → Nat → Bool
  | 0, k, m => m == k
  | fuel + 1, k, m =>
    m == k ||
      (match parentIdx order m with
       | none => false
       | some j => descB order fuel k j)

/-- No surviving record lies on a resolved-parent cycle: no node is an
ancestor of its own parent. (A self-referential record, `parentID = id`,
is the one-step cycle.) -/
def acyclicB (order : List Comment) : Bool :=
  (List.range order.length).all (fun i =>
    match parentIdx order i with
    | none => true
    | some j => !descB order order.length i j)

/-- `formatHeader` (app.go:673-679) with identity styling: author, score
and formatted time joined by the fixed separator. -/
def formatHeader (c : Comment) : String :=
  c.author ++ " • " ++ (toString c.score ++ " points") ++ " • " ++ c.formattedTime

/-- `ansiFields` (app.go:785-790): nil for all-whitespace text, otherwise
`strings.Fields`. -/
def ansiFields (text : String) : List String :=
  if strTrim text = "" then [] else fields text

/-- The ancestor part shared by `headerPrefix` and `bodyPrefix`
(app.go:751-783): a continuation guide per ancestor with a later sibling,
blanks otherwise. -/
def prefixGuides (hasNext : List Bool) : String :=
  hasNext.foldl (fun acc b => acc ++ (if b then "|  " else "   ")) ""

/-- `headerPrefix(hasNext, isLast)` (app.go:751-766). -/
def headerPrefix (hasNext : List Bool) (isLast : Bool) : String :=
  prefixGuides hasNext ++ (if isLast then "`- " else "+- ")

/-- `bodyPrefix(hasNext, isLast)` (app.go:768-783). -/
def bodyPrefix (hasNext : List Bool) (isLast : Bool) : String :=
  prefixGuides hasNext ++ (if isLast then "   " else "|  ")

/-- The greedy word-packing loop of `wrapWithPrefix` (app.go:698-707):
`line` holds the words packed so far; a word that would exceed `available`
(by visible width, with one joining space) flushes the line. -/
def wrapGo (pre : String) (available : Int) : String → List String → List String
  | line, [] => [pre ++ line]
  | line, w :: ws =>
    if (line.length : Int) + 1 + (w.length : Int) > available then
      (pre ++ line) :: wrapGo pre available w ws
    else
      wrapGo pre available (line ++ " " ++ w) ws

/-- `wrapWithPrefix(text, width, prefix)` (app.go:681-710): degenerate
single unwrapped line when no width is available, otherwise per paragraph
either a bare prefix line (empty paragraph) or greedily packed lines. -/
def wrapWithPrefix (text : String) (width : Int) (pre : String) : List String :=
  if width ≤ 0 then [pre ++ text]
  else
    let available : Int := width - (pre.length : Int)
    if available ≤ 0 then [pre ++ text]
    else
      (splitLines text).flatMap (fun para =>
        match ansiFields para with
        | [] => [pre]
        | w :: ws => wrapGo pre available w ws)

/-- The emitted lines of `renderComments`'s `walk` (app.go:644-669), one
list entry per written terminal line (the trailing blank separator of each
node is the empty line). Styling is the identity, so each written line is
the prefix followed by the wrapped line with its prefix stripped. Fuel as
in `dfsNode`. -/
def walkLines (order : List Comment) (width : Int) : Nat → List Bool → List Nat → List String
  | 0, _, _ => []
  | fuel + 1, hasNext, idxs =>
    (List.range idxs.length).flatMap (fun pos =>
      let i := idxs.getD pos 0
      let isLast : Bool := pos == idxs.length - 1
      let c := order.getD i defaultComment
      let hp := headerPrefix hasNext isLast
      let bp := bodyPrefix hasNext isLast
      ((wrapWithPrefix (formatHeader c) width hp).map (fun l => hp ++ trimPrefixStr l hp)) ++
        ((wrapWithPrefix c.body width bp).map (fun l => bp ++ trimPrefixStr l bp)) ++
        [""] ++
        (if (childIdxs order i).isEmpty then []
         else walkLines order width fuel (hasNext ++ [!isLast]) (childIdxs order i)))

/-- The lines written by `renderComments(comments, width, filter)`
(app.go:636-671) when `width > 0`. -/
def renderLines (comments : List Comment) (width : Int) (filter : String) : List String :=
  let filterLower := strToLower (strTrim filter)
  let f := buildCommentTree comments filterLower
  walkLines f.order width f.order.length [] f.roots

/-- `renderComments(comments, width, filter)` (app.go:636-671): empty for
non-positive width, otherwise the walk's lines each followed by a newline. -/
def renderComments (comments : List Comment) (width : Int) (filter : String) : String :=
  if width ≤ 0 then ""
  else String.join ((renderLines comments width filter).map (fun l => l ++ "\n"))

/-! ## Session state machine (app.go `Model`, `Update`, `handleCommentsKeys`)

The bubbles list/textinput/viewport widgets are external collaborators; the
model keeps the fields of `Model` the state machine itself reads and
writes. Of the viewport only its content (`SetContent`), its width and its
`AtBottom` answer are kept; scroll positions live inside the widget. -/

/-- `reddit.Thread` (types.go). -/
structure Thread where
  id : String
  title : String
  permalink : String
  ty : String
deriving DecidableEq, Repr

/-- The `mode` enumeration (app.go:18-25). -/
inductive Mode where
  | menu
  | threadList
  | comments
  | urlInput
deriving DecidableEq, Repr

/-- The session-relevant fields of `app.Model` (app.go:44-70). -/
structure AppModel where
  mode : Mode
  comments : List Comment
  commentFilter : String
  filterActive : Bool
  filterInputValue : String
  viewportContent : String
  viewportWidth : Int
  viewportAtBottom : Bool
  currentThread : Option Thread
  refreshEnabled : Bool
  loadingComments : Bool
  err : String
  status : String
  userScrolled : Bool
deriving DecidableEq, Repr

/-- The commands a transition returns (`tea.Cmd` values built by the
model): quitting, a comment fetch for a thread, the scheduler's next-tick
timer (`refreshTickCmd`), or a batch. -/
inductive Cmd where
  | quit
  | fetchComments (t : Thread)
  | tick
  | batch (cs : List Cmd)
deriving Repr

/-- `fetchCommentsCmd(client, thread)` (app.go:613-621): nil command when
no thread is set. -/
def fetchCommentsCmd : Option Thread → Option Cmd
  | none => none
  | some t => some (Cmd.fetchComments t)

/-- `Model.updateViewport` (app.go:474-480): re-render into the viewport
unless its width is zero. -/
def updateViewport (m : AppModel) : AppModel :=
  if m.viewportWidth = 0 then m
  else { m with viewportContent := renderComments m.comments m.viewportWidth m.commentFilter }

/-- `Model.handleCommentsKeys` (app.go:353-431): the CommentView key
handler; returns the new model, the command and the handled flag. Keys are
their `tea.KeyMsg.String()` names. Pure widget scrolling is internal to the
viewport collaborator; its effect on the model is the `userScrolled` flag. -/
def handleCommentsKeys (m : AppModel) (key : String) : AppModel × Option Cmd × Bool :=
  if m.filterActive ∧ key = "esc" then
    (updateViewport { m with filterActive := false, filterInputValue := "", commentFilter := "" },
      none, true)
  else if m.filterActive ∧ key = "enter" ∧ strTrim m.filterInputValue = "" then
    (updateViewport { m with filterActive := false, filterInputValue := "", commentFilter := "" },
      none, true)
  else if key = "r" then
    match m.currentThread with
    | some t => ({ m with loadingComments := true }, some (Cmd.fetchComments t), true)
    | none => (m, none, false)
  else if key = "esc" then
    ({ m with mode := Mode.menu, currentThread := none, refreshEnabled := false }, none, true)
  else if key = "backspace" then
    if m.filterActive then (m, none, true)
    else ({ m with mode := Mode.threadList, currentThread := none, refreshEnabled := false },
      none, true)
  else if key = "end" then
    ({ m with userScrolled := false, viewportAtBottom := true }, none, true)
  else if key = "/" then
    if !m.filterActive then
      (updateViewport { m with filterActive := true }, none, true)
    else
      (updateViewport { m with filterActive := false, filterInputValue := "", commentFilter := "" },
        none, true)
  else if key = "up" ∨ key = "k" then
    ({ m with userScrolled := true }, none, true)
  else if key = "down" ∨ key = "j" then
    ({ m with userScrolled := if m.viewportAtBottom then false else m.userScrolled }, none, true)
  else if key = "pgup" then
    ({ m with userScrolled := true }, none, true)
  else if key = "pgdown" then
    ({ m with userScrolled := if m.viewportAtBottom then false else m.userScrolled }, none, true)
  else (m, none, false)

/-- The messages of `Model.Update` the claims concern (app.go:132-143):
a finished comment fetch and the refresh scheduler's tick. -/
inductive Msg where
  | commentsLoaded (comments : List Comment) (title : String) (err : Option String)
  | refreshTick
deriving Repr

/-- `Model.Update` (app.go:145-247) on `commentsLoadedMsg` and
`refreshTickMsg`. On a fetch error only the error message is recorded and
the in-flight flag cleared; on success the comments are replaced, the
viewport re-rendered (with `GotoBottom` unless the user scrolled) and a
non-empty title adopted into the current thread. On a tick, a CommentView
session with refresh enabled batches the next tick with a fetch. -/
def update (m : AppModel) (msg : Msg) : AppModel × Option Cmd :=
  match msg with
  | Msg.commentsLoaded cs title errv =>
    let m := { m with loadingComments := false }
    match errv with
    | some e => ({ m with err := e }, none)
    | none =>
      let m := { m with err := "", comments := cs }
      let m := updateViewport m
      let m := if !m.userScrolled then { m with viewportAtBottom := true } else m
      let m :=
        match m.currentThread with
        | some t => if title ≠ "" then { m with currentThread := some { t with title := title } } else m
        | none => m
      (m, none)
  | Msg.refreshTick =>
    if m.mode = Mode.comments ∧ m.refreshEnabled then
      (m, some (Cmd.batch ([Cmd.tick] ++ (fetchCommentsCmd m.currentThread).toList)))
    else (m, none)

/-! ## Fetch collaborator (`internal/reddit/client.go`) -/

/-- `reddit.ThreadQuery` (types.go). -/
structure ThreadQuery where
  ty : String
  subreddit : String
  flairs : List String
  maxAgeHours : Int
  limit : Int
  titleMustContain : List String
  titleMustNotContain : List String
deriving Repr

/-- `ThreadQuery.WithinAge` (types.go): `nowUTC()` is passed explicitly. -/
def withinAge (now : Int) (q : ThreadQuery) (createdUTC : Int) : Bool :=
  if q.maxAgeHours = 0 then true
  else createdUTC ≥ now - q.maxAgeHours * 3600

/-- `ThreadQuery.TitleMatches` (types.go). -/
def titleMatches (q : ThreadQuery) (title : String) : Bool :=
  (q.titleMustContain.all (fun phrase => strContains (strToLower title) (strToLower phrase))) &&
    (q.titleMustNotContain.all (fun phrase => !strContains (strToLower title) (strToLower phrase)))

/-- `reddit.postData` (types.go). -/
structure PostData where
  id : String
  title : String
  permalink : String
  createdUTC : Int
deriving Repr

/-- One element of a search listing's `children`: its kind tag and its
decoded post data (`none` when `json.Unmarshal` of the thing fails). -/
structure SearchThing where
  kind : String
  data : Option PostData
deriving Repr

/-- The per-flair filtering loop body of `FindThreads` (client.go:102-123):
keep `t3` things that decode, pass the age filter and the title filters. -/
def survivors (now : Int) (q : ThreadQuery) (things : List SearchThing) : List Thread :=
  things.filterMap (fun th =>
    if th.kind ≠ "t3" then none
    else
      match th.data with
      | none => none
      | some post =>
        if !withinAge now q post.createdUTC then none
        else if !titleMatches q post.title then none
        else some ⟨post.id, post.title, post.permalink, q.ty⟩)

/-- The flair loop of `FindThreads` (client.go:71-128): accumulate each
flair's surviving threads and break as soon as the accumulator is
non-empty. `search` is the HTTP collaborator's (error-free) answer per
flair phrase. -/
def findThreadsLoop (now : Int) (q : ThreadQuery) (search : String → List SearchThing)
    (acc : List Thread) : List String → List Thread
  | [] => acc
  | flair :: rest =>
    let acc := acc ++ survivors now q (search flair)
    if acc.length > 0 then acc else findThreadsLoop now q search acc rest

/-- `Client.FindThreads` (client.go:68-131) under an error-free transport. -/
def findThreads (now : Int) (q : ThreadQuery) (search : String → List SearchThing) : List Thread :=
  findThreadsLoop now q search [] q.flairs

/-- `fallback(value, fallback)` (client.go:255-260). -/
def fallback (value fb : String) : String :=
  if value = "" then fb else value

/-- `formatTimestamp` renders in the local timezone (client.go:248-253);
the environment-dependent formatting is a parameter `fmtTime` below, with
only the `ts == 0` guard kept here. -/
def formatTimestamp (fmtTime : Int → String) (ts : Int) : String :=
  if ts = 0 then "" else fmtTime ts

mutual
/-- A decoded `redditComment` (types.go) together with its reply listing:
`id`, `author`, `body`, `created_utc`, `score`, `parent_id` and the decoded
`replies` children (each a kind tag plus a nested comment). An empty or
`""` replies field is `RawReplies.nil`. -/
inductive RawComment where
  | mk (id author body : String) (createdUTC : Int) (score : Int) (parentID : String)
      (replies : RawReplies)

/-- The `children` of a reply listing: kind-tagged nested comments. -/
inductive RawReplies where
  | nil
  | cons (kind : String) (c : RawComment) (rest : RawReplies)
end

mutual
/-- `Client.processComment(raw, postID, depth, out)` (client.go:203-246) as
the list of comments it appends to `out`: deleted/removed bodies are
skipped with their whole subtree, a top-level comment whose parent is not
the post is skipped, the author falls back to `"[deleted]"`, the `t1_`
parent prefix is stripped and a `t3_` parent becomes the empty parent id;
then the `t1` replies are processed at the next depth. -/
def processComment (fmtTime : Int → String) (postID : String) (depth : Int) :
    RawComment → List Comment
  | RawComment.mk id author body createdUTC score parentID replies =>
    if body = "[deleted]" ∨ body = "[removed]" then []
    else if depth = 0 ∧ parentID ≠ "t3_" ++ postID then []
    else
      { id := id
        author := fallback author "[deleted]"
        body := body
        createdUTC := createdUTC
        formattedTime := formatTimestamp fmtTime createdUTC
        score := score
        depth := depth
        parentID :=
          if strHasPrefix parentID "t3_" then "" else trimPrefixStr parentID "t1_" } ::
        processReplies fmtTime postID (depth + 1) replies

/-- The reply loop of `processComment` (client.go:240-245): recurse into
the `t1` children. -/
def processReplies (fmtTime : Int → String) (postID : String) (depth : Int) :
    RawReplies → List Comment
  | RawReplies.nil => []
  | RawReplies.cons kind c rest =>
    (if kind = "t1" then processComment fmtTime postID depth c else []) ++
      processReplies fmtTime postID depth rest
end

/-! ## Concrete sample data used by witnesses and counterexamples -/

def sampleThread : Thread := ⟨"t1", "Match Thread", "/r/soccer/comments/t1", "game"⟩

def sampleComment : Comment := ⟨"a", "alice", "hello world", 10, "2024-01-01 00:00:00", 3, 0, ""⟩

def sampleModel : AppModel :=
  { mode := Mode.comments, comments := [sampleComment], commentFilter := "", filterActive := false,
    filterInputValue := "", viewportContent := "", viewportWidth := 40, viewportAtBottom := true,
    currentThread := some sampleThread, refreshEnabled := true, loadingComments := true,
    err := "", status := "", userScrolled := false }

/-- A record whose declared parent id resolves to no record at all. -/
def orphanComment : Comment := ⟨"x", "bob", "reply", 11, "", 1, 0, "zzz"⟩

def sampleQuery : ThreadQuery := ⟨"game", "soccer", ["Match Thread", "Match thread"], 0, 50, [], []⟩

def sampleSearch : String → List SearchThing := fun fl =>
  if fl = "Match thread" then
    [⟨"t3", some ⟨"abc", "Match thread: A vs B", "/r/soccer/comments/abc", 100⟩⟩]
  else []

def sampleRaw : RawComment :=
  RawComment.mk "c1" "" "hi" 5 2 "t3_p"
    (RawReplies.cons "t1" (RawComment.mk "c2" "bob" "nice" 6 1 "t1_c1" RawReplies.nil)
      RawReplies.nil)

/-- The four-record input refuting C1 as stated: two roots `a`,`b`, a child
`c` of `a` arriving after `b`, and a self-referential record `d`. -/
def c1Input : List Comment :=
  [⟨"a", "u1", "one", 1, "", 0, 0, ""⟩,
   ⟨"b", "u2", "two", 2, "", 0, 0, ""⟩,
   ⟨"c", "u3", "three", 3, "", 0, 0, "a"⟩,
   ⟨"d", "u4", "four", 4, "", 0, 0, "d"⟩]

/-- A single comment whose body is one word of sixteen characters: it
cannot be wrapped to five columns. -/
def longWordComment : Comment := ⟨"a", "u", "abcdefghijklmnop", 0, "", 0, 0, ""⟩

/-- Every whitespace-delimited word of `text` fits in the width remaining
after a prefix of `pfxLen` columns (and some width remains at all). -/
def wordsFit (width : Int) (pfxLen : Nat) (text : String) : Bool :=
  decide ((pfxLen : Int) < width) &&
    (splitLines text).all (fun para =>
      (ansiFields para).all (fun w => decide ((w.length : Int) ≤ width - (pfxLen : Int))))

/-- `wordsFit` for every node the renderer's walk visits from `idxs` at
depth `depth`, against that node's prefix length `3 * depth + 3`; mirrors
the recursion of `walkLines`. -/
def fitsLevel (order : List Comment) (width : Int) : Nat → Nat → List Nat → Bool
  | 0, _, _ => true
  | fuel + 1, depth, idxs =>
    (List.range idxs.length).all (fun pos =>
      let i := idxs.getD pos 0
      let c := order.getD i defaultComment
      wordsFit width (3 * depth + 3) (formatHeader c) &&
        wordsFit width (3 * depth + 3) c.body &&
        fitsLevel order width fuel (depth + 1) (childIdxs order i))

/-- Every header and body word of the forest rendered by
`renderComments comments width filter` fits beside its tree prefix. -/
def rendersFit (comments : List Comment) (width : Int) (filter : String) : Bool :=
  let f := buildCommentTree comments (strToLower (strTrim filter))
  fitsLevel f.order width f.order.length 0 f.roots

/-! ## Basic lemmas about the tree builder -/

theorem lookupIdx_eq_none_iff (order : List Comment) (pid : String) :
    lookupIdx order pid = none ↔ ∀ c ∈ order, c.id ≠ pid := by
  induction order with
  | nil => simp [lookupIdx]
  | cons c rest ih =>
    constructor
    · intro h x hx
      unfold lookupIdx at h
      cases hrest : lookupIdx rest pid with
      | some j => rw [hrest] at h; exact absurd h (by simp)
      | none =>
        rw [hrest] at h
        rcases List.mem_cons.mp hx with rfl | hx'
        · intro hid; rw [if_pos hid] at h; exact absurd h (by simp)
        · exact (ih.mp hrest) x hx'
    · intro h
      have hrest : lookupIdx rest pid = none :=
        ih.mpr (fun x hx => h x (List.mem_cons_of_mem _ hx))
      unfold lookupIdx
      rw [hrest, if_neg (h c (List.mem_cons_self c rest))]

theorem mem_rootIdxs (order : List Comment) (i : Nat) :
    i ∈ rootIdxs order ↔ i < order.length ∧ parentIdx order i = none := by
  simp [rootIdxs, List.mem_filter, List.mem_range, And.comm]

theorem mem_childIdxs (order : List Comment) (i k : Nat) :
    i ∈ childIdxs order k ↔ i < order.length ∧ parentIdx order i = some k := by
  simp [childIdxs, List.mem_filter, List.mem_range, And.comm]

theorem parentIdx_of_lt (order : List Comment) (i : Nat) (h : i < order.length) :
    parentIdx order i =
      (if strTrim (order.getD i defaultComment).parentID = "" then none
       else lookupIdx order (strTrim (order.getD i defaultComment).parentID)) := by
  unfold parentIdx
  cases hg : order.get? i with
  | none => exact absurd (List.get?_eq_none.mp hg) (by omega)
  | some c =>
    have : order.getD i defaultComment = c := by
      rw [List.getD_eq_getElem?_getD, ← List.get?_eq_getElem?, hg]; rfl
    rw [this]

theorem strContains_empty_sub (s : String) : strContains s "" = true := by
  unfold strContains
  cases s.data <;> simp [strContains.go, List.isPrefixOf]

/-- C4: a surviving record whose trimmed parent id is empty or names no
surviving record is appended to the builder's roots, never dropped. -/
theorem c4_orphan_promoted_to_root (comments : List Comment) (filterLower : String) (i : Nat)
    (hi : i < (buildCommentTree comments filterLower).order.length)
    (horph :
      strTrim ((buildCommentTree comments filterLower).order.getD i defaultComment).parentID = "" ∨
      ∀ c ∈ (buildCommentTree comments filterLower).order,
        c.id ≠ strTrim ((buildCommentTree comments filterLower).order.getD i defaultComment).parentID) :
    i ∈ (buildCommentTree comments filterLower).roots := by
  set order := (buildCommentTree comments filterLower).order with horder
  have hroots : (buildCommentTree comments filterLower).roots = rootIdxs order := rfl
  rw [hroots, mem_rootIdxs]
  refine ⟨hi, ?_⟩
  rw [parentIdx_of_lt order i hi]
  by_cases hpid : strTrim (order.getD i defaultComment).parentID = ""
  · rw [if_pos hpid]
  · rw [if_neg hpid]
    rcases horph with he | habs
    · exact absurd he hpid
    · exact (lookupIdx_eq_none_iff order _).mpr habs

/-- Witness for C4: `orphanComment`'s parent id `"zzz"` matches no record,
so its node (index 1) is a root. -/
theorem c4_witness :
    (1 < (buildCommentTree [sampleComment, orphanComment] "").order.length ∧
      ∀ c ∈ (buildCommentTree [sampleComment, orphanComment] "").order,
        c.id ≠ strTrim (((buildCommentTree [sampleComment, orphanComment] "").order.getD 1
          defaultComment).parentID)) ∧
    1 ∈ (buildCommentTree [sampleComment, orphanComment] "").roots :=
  ⟨⟨by decide, by decide⟩,
    c4_orphan_promoted_to_root [sampleComment, orphanComment] "" 1 (by decide)
      (Or.inr (by decide))⟩

/-- C5: filtering happens before tree assembly as a case-insensitive
substring match — a record is in the builder's node set iff the lowered,
trimmed filter occurs in its lowered author or lowered body — and a filter
matching no record yields an empty forest and empty render output. -/
theorem c5_filter_before_assembly (comments : List Comment) (filter : String) :
    (∀ c, c ∈ (buildCommentTree comments (strToLower (strTrim filter))).order ↔
      c ∈ comments ∧
        (strContains (strToLower c.author) (strToLower (strTrim filter)) = true ∨
          strContains (strToLower c.body) (strToLower (strTrim filter)) = true)) ∧
    ((∀ c ∈ comments, keepsComment (strToLower (strTrim filter)) c = false) →
      ∀ width, renderComments comments width filter = "") := by
  constructor
  · intro c
    show c ∈ filteredComments comments _ ↔ _
    rw [filteredComments, List.mem_filter]
    unfold keepsComment
    by_cases h0 : strToLower (strTrim filter) = ""
    · simp [h0, strContains_empty_sub]
    · simp [h0, Bool.or_eq_true]
  · intro hnone width
    have horder : filteredComments comments (strToLower (strTrim filter)) = [] := by
      rw [filteredComments, List.filter_eq_nil_iff]
      intro c hc
      simp [hnone c hc]
    unfold renderComments
    by_cases hw : width ≤ 0
    · rw [if_pos hw]
    · rw [if_neg hw]
      have hrl : renderLines comments width filter = [] := by
        simp [renderLines, buildCommentTree, horder, rootIdxs, walkLines]
      rw [hrl]
      rfl

/-- Witness for C5: the filter `"zzz"` matches neither `sampleComment`'s
author nor its body, and the render output is empty. -/
theorem c5_witness : renderComments [sampleComment] 40 "zzz" = "" :=
  (c5_filter_before_assembly [sampleComment] "zzz").2 (by decide) 40

/-- Counterexample to C3 as stated: in `sampleModel` a fetch is in flight
(`loadingComments = true`), yet pressing `r` is not a no-op — it returns a
fetch command rather than none. -/
theorem c3_counterexample : (handleCommentsKeys sampleModel "r").2.1 ≠ none := by
  have h : (handleCommentsKeys sampleModel "r").2.1.isSome = true := by decide
  intro hn
  rw [hn] at h
  simp at h

/-- C3 (amended): pressing `r` in CommentView issues a comment fetch
whenever a thread is selected, even while a fetch is already in flight —
the in-flight flag is set again but never consulted. -/
theorem c3_amended_refetch (m : AppModel) (t : Thread)
    (h1 : m.currentThread = some t) (h2 : m.loadingComments = true) :
    handleCommentsKeys m "r" =
      ({ m with loadingComments := true }, some (Cmd.fetchComments t), true) := by
  simp [handleCommentsKeys, h1]

/-- Witness for C3 (amended) at `sampleModel`. -/
theorem c3_witness :
    sampleModel.currentThread = some sampleThread ∧ sampleModel.loadingComments = true ∧
      handleCommentsKeys sampleModel "r" =
        ({ sampleModel with loadingComments := true },
          some (Cmd.fetchComments sampleThread), true) :=
  ⟨rfl, rfl, c3_amended_refetch sampleModel sampleThread rfl rfl⟩

/-- Counterexample to C6 as stated: after backspace leaves CommentView the
session still holds the loaded comments — they are not discarded. -/
theorem c6_counterexample : (handleCommentsKeys sampleModel "backspace").1.comments ≠ [] := by
  decide

/-- C6 (amended): outside filter editing, backspace moves the session to
ThreadList and escape to Menu; both clear the current thread and disable
refresh, so the scheduler's next tick issues no command; the loaded
comments, however, are retained, not discarded. -/
theorem c6_amended_leave_comment_view (m : AppModel) (h : m.filterActive = false) :
    handleCommentsKeys m "backspace" =
      ({ m with mode := Mode.threadList, currentThread := none, refreshEnabled := false },
        none, true) ∧
    handleCommentsKeys m "esc" =
      ({ m with mode := Mode.menu, currentThread := none, refreshEnabled := false },
        none, true) ∧
    (update (handleCommentsKeys m "backspace").1 Msg.refreshTick).2 = none ∧
    (update (handleCommentsKeys m "esc").1 Msg.refreshTick).2 = none ∧
    (handleCommentsKeys m "backspace").1.comments = m.comments ∧
    (handleCommentsKeys m "esc").1.comments = m.comments := by
  have hbs : handleCommentsKeys m "backspace" =
      ({ m with mode := Mode.threadList, currentThread := none, refreshEnabled := false },
        none, true) := by
    simp [handleCommentsKeys, h]
  have hesc : handleCommentsKeys m "esc" =
      ({ m with mode := Mode.menu, currentThread := none, refreshEnabled := false },
        none, true) := by
    simp [handleCommentsKeys, h]
  refine ⟨hbs, hesc, ?_, ?_, ?_, ?_⟩
  · rw [hbs]; simp [update]
  · rw [hesc]; simp [update]
  · rw [hbs]
  · rw [hesc]

/-- Witness for C6 (amended) at `sampleModel`. -/
theorem c6_witness :
    sampleModel.filterActive = false ∧
      (handleCommentsKeys sampleModel "backspace").1.mode = Mode.threadList ∧
      (handleCommentsKeys sampleModel "esc").1.mode = Mode.menu ∧
      (update (handleCommentsKeys sampleModel "backspace").1 Msg.refreshTick).2 = none ∧
      (handleCommentsKeys sampleModel "backspace").1.comments = sampleModel.comments :=
  ⟨rfl,
    by rw [(c6_amended_leave_comment_view sampleModel rfl).1],
    by rw [(c6_amended_leave_comment_view sampleModel rfl).2.1],
    (c6_amended_leave_comment_view sampleModel rfl).2.2.1,
    (c6_amended_leave_comment_view sampleModel rfl).2.2.2.2.1⟩

/-- C7: a comment-fetch result carrying an error only records the error
message and clears the in-flight flag: comments, viewport content, mode
and current thread are untouched, and no command (in particular no fatal
action) is issued. -/
theorem c7_error_preserves_state (m : AppModel) (cs : List Comment) (title e : String) :
    (update m (Msg.commentsLoaded cs title (some e))).1.comments = m.comments ∧
    (update m (Msg.commentsLoaded cs title (some e))).1.viewportContent = m.viewportContent ∧
    (update m (Msg.commentsLoaded cs title (some e))).1.mode = m.mode ∧
    (update m (Msg.commentsLoaded cs title (some e))).1.currentThread = m.currentThread ∧
    (update m (Msg.commentsLoaded cs title (some e))).1.err = e ∧
    (update m (Msg.commentsLoaded cs title (some e))).2 = none :=
  ⟨rfl, rfl, rfl, rfl, rfl, rfl⟩

/-- C8: rendering is deterministic and idempotent — the renderer is a pure
function of its arguments, so identical calls give byte-identical output. -/
theorem c8_render_deterministic (comments : List Comment) (width : Int) (filter : String) :
    renderComments comments width filter = renderComments comments width filter := rfl

theorem findThreadsLoop_skip (now : Int) (q : ThreadQuery) (search : String → List SearchThing)
    (fs1 : List String) (rest : List String)
    (h1 : ∀ g ∈ fs1, survivors now q (search g) = []) :
    findThreadsLoop now q search [] (fs1 ++ rest) = findThreadsLoop now q search [] rest := by
  induction fs1 with
  | nil => rfl
  | cons g gs ih =>
    have hg : survivors now q (search g) = [] := h1 g (List.mem_cons_self g gs)
    have hgs : ∀ g' ∈ gs, survivors now q (search g') = [] :=
      fun g' hg' => h1 g' (List.mem_cons_of_mem _ hg')
    rw [List.cons_append]
    simp only [findThreadsLoop, hg]
    simpa using ih hgs

/-- C9: `FindThreads` tries the configured flair phrases in order and
returns exactly the survivors of the first phrase that yields any; later
phrases contribute nothing to the result. -/
theorem c9_first_nonempty_flair (now : Int) (q : ThreadQuery)
    (search : String → List SearchThing) (fs1 : List String) (f : String) (fs2 : List String)
    (hsplit : q.flairs = fs1 ++ f :: fs2)
    (h1 : ∀ g ∈ fs1, survivors now q (search g) = [])
    (h2 : survivors now q (search f) ≠ []) :
    findThreads now q search = survivors now q (search f) := by
  unfold findThreads
  rw [hsplit, findThreadsLoop_skip now q search fs1 (f :: fs2) h1]
  have hlen : (survivors now q (search f)).length > 0 := List.length_pos.mpr h2
  simp only [findThreadsLoop, List.nil_append]
  rw [if_pos hlen]

/-- Witness for C9: the first configured flair finds nothing, the second
finds one thread, and `findThreads` returns exactly that thread. -/
theorem c9_witness :
    (∀ g ∈ ["Match Thread"], survivors 100 sampleQuery (sampleSearch g) = []) ∧
      survivors 100 sampleQuery (sampleSearch "Match thread") ≠ [] ∧
      findThreads 100 sampleQuery sampleSearch =
        survivors 100 sampleQuery (sampleSearch "Match thread") :=
  ⟨by decide, by decide,
    c9_first_nonempty_flair 100 sampleQuery sampleSearch ["Match Thread"] "Match thread" []
      rfl (by decide) (by decide)⟩

theorem fallback_ne_empty (author : String) : fallback author "[deleted]" ≠ "" := by
  unfold fallback
  by_cases h : author = ""
  · simp [h]
  · simp [h]

theorem processComment_inv (fmtTime : Int → String) (postID : String) :
    ∀ raw : RawComment, ∀ depth : Int, ∀ c ∈ processComment fmtTime postID depth raw,
      c.author ≠ "" ∧ c.body ≠ "[deleted]" ∧ c.body ≠ "[removed]" :=
  @RawComment.rec
    (fun raw => ∀ depth : Int, ∀ c ∈ processComment fmtTime postID depth raw,
      c.author ≠ "" ∧ c.body ≠ "[deleted]" ∧ c.body ≠ "[removed]")
    (fun rs => ∀ depth : Int, ∀ c ∈ processReplies fmtTime postID depth rs,
      c.author ≠ "" ∧ c.body ≠ "[deleted]" ∧ c.body ≠ "[removed]")
    (fun id author body createdUTC score parentID replies ih => by
      intro depth c hc
      unfold processComment at hc
      by_cases hbad : body = "[deleted]" ∨ body = "[removed]"
      · rw [if_pos hbad] at hc; exact absurd hc (List.not_mem_nil c)
      · rw [if_neg hbad] at hc
        by_cases hskip : depth = 0 ∧ parentID ≠ "t3_" ++ postID
        · rw [if_pos hskip] at hc; exact absurd hc (List.not_mem_nil c)
        · rw [if_neg hskip] at hc
          rcases List.mem_cons.mp hc with rfl | htail
          · exact ⟨fallback_ne_empty author, fun h => hbad (Or.inl h), fun h => hbad (Or.inr h)⟩
          · exact ih (depth + 1) c htail)
    (by intro depth c hc; exact absurd hc (List.not_mem_nil c))
    (fun kind c rest ihc ihr => by
      intro depth x hx
      unfold processReplies at hx
      rcases List.mem_append.mp hx with hl | hr
      · by_cases hk : kind = "t1"
        · rw [if_pos hk] at hl; exact ihc depth x hl
        · rw [if_neg hk] at hl; exact absurd hl (List.not_mem_nil x)
      · exact ihr depth x hr)

/-- C10: every comment emitted by `processComment` has a non-empty author
(an empty one was replaced by `"[deleted]"`) and a body that is neither
`"[deleted]"` nor `"[removed]"`; a record with such a body is skipped
together with its whole reply subtree. -/
theorem c10_processComment_invariant (fmtTime : Int → String) (postID : String) :
    (∀ (depth : Int) (raw : RawComment), ∀ c ∈ processComment fmtTime postID depth raw,
      c.author ≠ "" ∧ c.body ≠ "[deleted]" ∧ c.body ≠ "[removed]") ∧
    (∀ (depth : Int) (id author body : String) (createdUTC score : Int) (parentID : String)
      (replies : RawReplies), (body = "[deleted]" ∨ body = "[removed]") →
      processComment fmtTime postID depth
        (RawComment.mk id author body createdUTC score parentID replies) = []) := by
  constructor
  · intro depth raw
    exact processComment_inv fmtTime postID raw depth
  · intro depth id author body createdUTC score parentID replies hbad
    unfold processComment
    rw [if_pos hbad]

/-! ## Renderer width bound (C2) -/

theorem strData_append (s t : String) : (s ++ t).data = s.data ++ t.data := by
  cases s; cases t; rfl

theorem strLength_append (s t : String) : (s ++ t).length = s.length + t.length := by
  show (s ++ t).data.length = s.data.length + t.data.length
  rw [strData_append, List.length_append]

theorem isPrefixOf_append_self (l x : List Char) : l.isPrefixOf (l ++ x) = true := by
  simp [List.isPrefixOf_iff_prefix, List.prefix_append]

theorem trimPrefix_append (pre x : String) : trimPrefixStr (pre ++ x) pre = x := by
  unfold trimPrefixStr strHasPrefix
  rw [strData_append, isPrefixOf_append_self]
  simp only [if_true]
  rw [List.drop_left]

theorem foldl_guides_length (hasNext : List Bool) :
    ∀ acc : String, (hasNext.foldl (fun acc b => acc ++ (if b then "|  " else "   ")) acc).length =
      acc.length + 3 * hasNext.length := by
  induction hasNext with
  | nil => intro acc; simp
  | cons b rest ih =>
    intro acc
    rw [List.foldl_cons, ih, strLength_append]
    have h1 : ("|  " : String).length = 3 := rfl
    have h2 : ("   " : String).length = 3 := rfl
    cases b
    · simp only [Bool.false_eq_true, if_false, h2, List.length_cons]; omega
    · simp only [if_true, h1, List.length_cons]; omega

theorem prefixGuides_length (hasNext : List Bool) :
    (prefixGuides hasNext).length = 3 * hasNext.length := by
  unfold prefixGuides
  rw [foldl_guides_length]
  simp

theorem headerPrefix_length (hasNext : List Bool) (isLast : Bool) :
    (headerPrefix hasNext isLast).length = 3 * hasNext.length + 3 := by
  unfold headerPrefix
  rw [strLength_append, prefixGuides_length]
  cases isLast <;> rfl

theorem bodyPrefix_length (hasNext : List Bool) (isLast : Bool) :
    (bodyPrefix hasNext isLast).length = 3 * hasNext.length + 3 := by
  unfold bodyPrefix
  rw [strLength_append, prefixGuides_length]
  cases isLast <;> rfl

theorem wrapGo_shape (pre : String) (available : Int) :
    ∀ (ws : List String) (line : String), ∀ l ∈ wrapGo pre available line ws, ∃ x, l = pre ++ x := by
  intro ws
  induction ws with
  | nil =>
    intro line l hl
    simp only [wrapGo, List.mem_singleton] at hl
    exact ⟨line, hl⟩
  | cons w ws ih =>
    intro line l hl
    simp only [wrapGo] at hl
    split at hl
    · rcases List.mem_cons.mp hl with rfl | h
      · exact ⟨line, rfl⟩
      · exact ih w l h
    · exact ih _ l hl

theorem wrapGo_bound (pre : String) (available : Int) :
    ∀ (ws : List String) (line : String), (line.length : Int) ≤ available →
      (∀ w ∈ ws, (w.length : Int) ≤ available) →
      ∀ l ∈ wrapGo pre available line ws, (l.length : Int) ≤ (pre.length : Int) + available := by
  intro ws
  induction ws with
  | nil =>
    intro line hline _ l hl
    simp only [wrapGo, List.mem_singleton] at hl
    subst hl
    rw [strLength_append]
    push_cast
    omega
  | cons w ws ih =>
    intro line hline hws l hl
    have hw : (w.length : Int) ≤ available := hws w (List.mem_cons_self w ws)
    have hws' : ∀ w' ∈ ws, (w'.length : Int) ≤ available :=
      fun w' h => hws w' (List.mem_cons_of_mem _ h)
    simp only [wrapGo] at hl
    split at hl
    · rcases List.mem_cons.mp hl with rfl | h
      · rw [strLength_append]; push_cast; omega
      · exact ih w hw hws' l h
    · rename_i hnot
      have hline' : ((line ++ " " ++ w).length : Int) ≤ available := by
        rw [strLength_append, strLength_append]
        have hsp : (" " : String).length = 1 := rfl
        rw [hsp]
        push_cast
        simp only [not_lt] at hnot
        omega
      exact ih _ hline' hws' l hl

theorem wrapWithPrefix_bound (text : String) (width : Int) (pre : String)
    (hw : 0 < width) (hp : (pre.length : Int) < width)
    (hwords : ∀ para ∈ splitLines text, ∀ w ∈ ansiFields para,
      (w.length : Int) ≤ width - (pre.length : Int)) :
    ∀ l ∈ wrapWithPrefix text width pre, (∃ x, l = pre ++ x) ∧ (l.length : Int) ≤ width := by
  intro l hl
  unfold wrapWithPrefix at hl
  rw [if_neg (by omega)] at hl
  rw [if_neg (by omega)] at hl
  rcases List.mem_flatMap.mp hl with ⟨para, hpara, hl⟩
  cases hfields : ansiFields para with
  | nil =>
    rw [hfields] at hl
    simp only [List.mem_singleton] at hl
    refine ⟨⟨"", by rw [hl, String.append_empty]⟩, ?_⟩
    rw [hl]
    omega
  | cons w ws =>
    rw [hfields] at hl
    have hbound := hwords para hpara
    rw [hfields] at hbound
    have hw0 : (w.length : Int) ≤ width - (pre.length : Int) :=
      hbound w (List.mem_cons_self w ws)
    have hws : ∀ w' ∈ ws, (w'.length : Int) ≤ width - (pre.length : Int) :=
      fun w' h => hbound w' (List.mem_cons_of_mem _ h)
    refine ⟨wrapGo_shape pre _ ws w l hl, ?_⟩
    have := wrapGo_bound pre (width - (pre.length : Int)) ws w hw0 hws l hl
    omega

theorem walkLines_bound (order : List Comment) (width : Int) (hw : 0 < width) :
    ∀ (fuel : Nat) (hasNext : List Bool) (idxs : List Nat),
      fitsLevel order width fuel hasNext.length idxs = true →
      ∀ l ∈ walkLines order width fuel hasNext idxs, (l.length : Int) ≤ width := by
  intro fuel
  induction fuel with
  | zero =>
    intro hasNext idxs _ l hl
    simp [walkLines] at hl
  | succ fuel ih =>
    intro hasNext idxs hfits l hl
    simp only [walkLines] at hl
    rcases List.mem_flatMap.mp hl with ⟨pos, hpos, hblock⟩
    simp only [fitsLevel, List.all_eq_true] at hfits
    have hfit := hfits pos hpos
    simp only [Bool.and_eq_true] at hfit
    obtain ⟨⟨hfitH, hfitB⟩, hfitKids⟩ := hfit
    simp only [wordsFit, Bool.and_eq_true, decide_eq_true_eq, List.all_eq_true] at hfitH hfitB
    obtain ⟨hltH, hwordsH⟩ := hfitH
    obtain ⟨hltB, hwordsB⟩ := hfitB
    rcases List.mem_append.mp hblock with hblock1 | hkids
    · rcases List.mem_append.mp hblock1 with hblock2 | hsep
      · rcases List.mem_append.mp hblock2 with hhead | hbody
        · rcases List.mem_map.mp hhead with ⟨l', hl', rfl⟩
          have hplen : ((headerPrefix hasNext (pos == idxs.length - 1)).length : Int) < width := by
            rw [headerPrefix_length]; push_cast at hltH ⊢; omega
          have hwords : ∀ para ∈
              splitLines (formatHeader (order.getD (idxs.getD pos 0) defaultComment)),
              ∀ w ∈ ansiFields para,
              (w.length : Int) ≤
                width - ((headerPrefix hasNext (pos == idxs.length - 1)).length : Int) := by
            intro para hpara w hwmem
            have := hwordsH para hpara w hwmem
            rw [headerPrefix_length]; push_cast at this ⊢; omega
          obtain ⟨⟨x, hx⟩, hlen⟩ := wrapWithPrefix_bound _ width _ hw hplen hwords l' hl'
          rw [hx, trimPrefix_append, ← hx]
          exact hlen
        · rcases List.mem_map.mp hbody with ⟨l', hl', rfl⟩
          have hplen : ((bodyPrefix hasNext (pos == idxs.length - 1)).length : Int) < width := by
            rw [bodyPrefix_length]; push_cast at hltB ⊢; omega
          have hwords : ∀ para ∈ splitLines (order.getD (idxs.getD pos 0) defaultComment).body,
              ∀ w ∈ ansiFields para,
              (w.length : Int) ≤
                width - ((bodyPrefix hasNext (pos == idxs.length - 1)).length : Int) := by
            intro para hpara w hwmem
            have := hwordsB para hpara w hwmem
            rw [bodyPrefix_length]; push_cast at this ⊢; omega
          obtain ⟨⟨x, hx⟩, hlen⟩ := wrapWithPrefix_bound _ width _ hw hplen hwords l' hl'
          rw [hx, trimPrefix_append, ← hx]
          exact hlen
      · simp only [List.mem_singleton] at hsep
        subst hsep
        show ((0 : Nat) : Int) ≤ width
        omega
    · split at hkids
      · exact absurd hkids (List.not_mem_nil l)
      · have hlen1 : (hasNext ++ [!(pos == idxs.length - 1)]).length = hasNext.length + 1 := by
          rw [List.length_append]; rfl
        exact ih (hasNext ++ [!(pos == idxs.length - 1)]) (childIdxs order (idxs.getD pos 0))
          (by rw [hlen1]; exact hfitKids) l hkids

/-- Counterexample to C2 as stated: at width 5 (within 1..200) the single
sixteen-character word of `longWordComment` is emitted unbroken, producing
a line wider than 5 visible columns. -/
theorem c2_counterexample :
    ¬ (∀ l ∈ renderLines [longWordComment] (5 : Int) "", (l.length : Int) ≤ 5) := by
  decide

/-- C2 (amended): every line emitted by `renderComments` occupies at most
`width` visible columns provided every whitespace-delimited word of each
rendered header and body fits in the width remaining after that node's
tree prefix; a single word longer than the remaining width is emitted
unbroken and overflows the line. -/
theorem c2_amended_width_bound (comments : List Comment) (width : Int) (filter : String)
    (hw : 0 < width) (hfits : rendersFit comments width filter = true) :
    ∀ l ∈ renderLines comments width filter, (l.length : Int) ≤ width :=
  walkLines_bound (buildCommentTree comments (strToLower (strTrim filter))).order width hw
    (buildCommentTree comments (strToLower (strTrim filter))).order.length []
    (buildCommentTree comments (strToLower (strTrim filter))).roots hfits

/-- Witness for C2 (amended): `sampleComment` at width 40 fits beside its
prefixes, and every emitted line is at most 40 columns. -/
theorem c2_witness :
    (0 : Int) < 40 ∧ rendersFit [sampleComment] 40 "" = true ∧
      ∀ l ∈ renderLines [sampleComment] 40 "", (l.length : Int) ≤ 40 :=
  ⟨by decide, by decide, c2_amended_width_bound [sampleComment] 40 "" (by decide) (by decide)⟩

/-- Witness for C10: in `sampleRaw` the top comment has an empty raw
author; both emitted comments satisfy the invariant, and a removed-body
record produces nothing. -/
theorem c10_witness :
    (⟨"c1", "[deleted]", "hi", 5, "", 2, 0, ""⟩ : Comment) ∈
        processComment (fun _ => "") "p" 0 sampleRaw ∧
      ((⟨"c1", "[deleted]", "hi", 5, "", 2, 0, ""⟩ : Comment).author ≠ "" ∧
        (⟨"c1", "[deleted]", "hi", 5, "", 2, 0, ""⟩ : Comment).body ≠ "[deleted]" ∧
        (⟨"c1", "[deleted]", "hi", 5, "", 2, 0, ""⟩ : Comment).body ≠ "[removed]") ∧
      processComment (fun _ => "") "p" 1
        (RawComment.mk "z" "eve" "[removed]" 7 0 "t1_c1" RawReplies.nil) = [] :=
  ⟨by decide,
    (c10_processComment_invariant (fun _ => "") "p").1 0 sampleRaw _ (by decide),
    (c10_processComment_invariant (fun _ => "") "p").2 1 "z" "eve" "[removed]" 7 0 "t1_c1"
      RawReplies.nil (Or.inr rfl)⟩

/-! ## Tree-builder traversal (C1): ancestor chains, counting, permutation -/

theorem lookupIdx_lt (order : List Comment) (pid : String) (j : Nat)
    (h : lookupIdx order pid = some j) : j < order.length := by
  induction order generalizing j with
  | nil => simp [lookupIdx] at h
  | cons c rest ih =>
    unfold lookupIdx at h
    cases hrest : lookupIdx rest pid with
    | some j' =>
      rw [hrest] at h
      simp only [Option.some.injEq] at h
      subst h
      have := ih j' hrest
      simp only [List.length_cons]
      omega
    | none =>
      rw [hrest] at h
      by_cases hc : c.id = pid
      · rw [if_pos hc] at h
        simp only [Option.some.injEq] at h
        subst h
        simp
      · rw [if_neg hc] at h
        exact absurd h (by simp)

theorem parentIdx_lt (order : List Comment) (i j : Nat)
    (h : parentIdx order i = some j) : j < order.length := by
  unfold parentIdx at h
  cases hg : order.get? i with
  | none => rw [hg] at h; exact absurd h (by simp)
  | some c =>
    rw [hg] at h
    simp only at h
    split at h
    · exact absurd h (by simp)
    · exact lookupIdx_lt order _ j h

theorem parentIdx_src_lt (order : List Comment) (i j : Nat)
    (h : parentIdx order i = some j) : i < order.length := by
  by_contra hge
  have : order.get? i = none := List.get?_eq_none.mpr (by omega)
  unfold parentIdx at h
  rw [this] at h
  exact absurd h (by simp)

theorem parentIdx_of_ge (order : List Comment) (i : Nat) (h : order.length ≤ i) :
    parentIdx order i = none := by
  unfold parentIdx
  rw [List.get?_eq_none.mpr h]

theorem iterPar_add (order : List Comment) (s t : Nat) :
    ∀ i, iterPar order (s + t) i = (iterPar order s i).bind (iterPar order t) := by
  induction s with
  | zero => intro i; simp [iterPar, Option.bind]
  | succ s ih =>
    intro i
    have harith : s + 1 + t = (s + t) + 1 := by omega
    rw [harith]
    cases hp : parentIdx order i with
    | none => simp [iterPar, hp]
    | some j => simp [iterPar, hp, ih j]

theorem descB_self (order : List Comment) (fuel k : Nat) : descB order fuel k k = true := by
  cases fuel <;> simp [descB]

theorem descB_iff (order : List Comment) :
    ∀ (fuel k m : Nat), descB order fuel k m = true ↔ ∃ t, t ≤ fuel ∧ iterPar order t m = some k := by
  intro fuel
  induction fuel with
  | zero =>
    intro k m
    constructor
    · intro h
      simp only [descB, beq_iff_eq] at h
      exact ⟨0, Nat.le_refl 0, by simp [iterPar, h]⟩
    · rintro ⟨t, ht, hiter⟩
      interval_cases t
      simp only [iterPar, Option.some.injEq] at hiter
      simp [descB, hiter]
  | succ fuel ih =>
    intro k m
    constructor
    · intro h
      simp only [descB, Bool.or_eq_true, beq_iff_eq] at h
      rcases h with rfl | h
      · exact ⟨0, by omega, rfl⟩
      · cases hp : parentIdx order m with
        | none => rw [hp] at h; exact absurd h (by simp)
        | some j =>
          rw [hp] at h
          rcases (ih k j).mp h with ⟨t, ht, hiter⟩
          exact ⟨t + 1, by omega, by simp [iterPar, hp, hiter]⟩
    · rintro ⟨t, ht, hiter⟩
      cases t with
      | zero =>
        simp only [iterPar, Option.some.injEq] at hiter
        simp [descB, hiter]
      | succ t =>
        simp only [iterPar] at hiter
        cases hp : parentIdx order m with
        | none => rw [hp] at hiter; exact absurd hiter (by simp)
        | some j =>
          rw [hp] at hiter
          have := (ih k j).mpr ⟨t, by omega, hiter⟩
          simp [descB, hp, this]


theorem iterPar_lt (order : List Comment) :
    ∀ (t i x : Nat), iterPar order (t + 1) i = some x → x < order.length := by
  intro t
  induction t with
  | zero =>
    intro i x h
    simp only [iterPar] at h
    cases hp : parentIdx order i with
    | none => rw [hp] at h; exact absurd h (by simp)
    | some j =>
      rw [hp] at h
      simp only [iterPar, Option.some.injEq] at h
      subst h
      exact parentIdx_lt order i _ hp
  | succ t ih =>
    intro i x h
    rw [show t + 1 + 1 = 1 + (t + 1) by omega, iterPar_add] at h
    cases h1 : iterPar order 1 i with
    | none => rw [h1] at h; exact absurd h (by simp)
    | some j => rw [h1] at h; exact ih j x h

theorem iterPar_isSome_mono (order : List Comment) (s t m : Nat) (hst : s ≤ t)
    (h : iterPar order t m ≠ none) : iterPar order s m ≠ none := by
  intro hnone
  rw [show t = s + (t - s) by omega, iterPar_add, hnone] at h
  exact h rfl

theorem iterPar_all_some_cycle (order : List Comment) (m : Nat)
    (h : iterPar order (order.length + 1) m ≠ none) :
    ∃ x v, 1 ≤ v ∧ v ≤ order.length ∧ iterPar order v x = some x := by
  set n := order.length with hn
  have hsome : ∀ t, t ≤ n + 1 → ∃ x, iterPar order t m = some x := by
    intro t ht
    cases hx : iterPar order t m with
    | none => exact absurd hx (iterPar_isSome_mono order t (n + 1) m ht h)
    | some x => exact ⟨x, rfl⟩
  -- the n+1 values iterPar 1 m, ..., iterPar (n+1) m all lie in range n
  have hmaps : ∀ t ∈ Finset.Icc 1 (n + 1), (iterPar order t m).getD 0 ∈ Finset.range n := by
    intro t ht
    rw [Finset.mem_Icc] at ht
    obtain ⟨x, hx⟩ := hsome t ht.2
    rw [hx]
    simp only [Option.getD_some, Finset.mem_range]
    obtain ⟨u, rfl⟩ : ∃ u, t = u + 1 := ⟨t - 1, by omega⟩
    exact iterPar_lt order u m x hx
  have hcard : (Finset.range n).card < (Finset.Icc 1 (n + 1)).card := by
    rw [Finset.card_range, Nat.card_Icc]
    omega
  obtain ⟨s, hs, t, ht, hne, heq⟩ :=
    Finset.exists_ne_map_eq_of_card_lt_of_maps_to hcard hmaps
  rw [Finset.mem_Icc] at hs ht
  -- order s < t without loss of generality
  rcases Nat.lt_or_ge s t with hlt | hge
  · obtain ⟨x, hx⟩ := hsome s hs.2
    obtain ⟨y, hy⟩ := hsome t ht.2
    have hxy : x = y := by
      rw [hx, hy] at heq
      simpa using heq
    subst hxy
    refine ⟨x, t - s, by omega, by omega, ?_⟩
    have := iterPar_add order s (t - s) m
    rw [show s + (t - s) = t by omega, hx] at this
    rw [hy] at this
    exact this.symm
  · have hlt : t < s := by omega
    obtain ⟨x, hx⟩ := hsome t ht.2
    obtain ⟨y, hy⟩ := hsome s hs.2
    have hxy : x = y := by
      rw [hx, hy] at heq
      simpa using heq.symm
    subst hxy
    refine ⟨x, s - t, by omega, by omega, ?_⟩
    have := iterPar_add order t (s - t) m
    rw [show t + (s - t) = s by omega, hx] at this
    rw [hy] at this
    exact this.symm

theorem acyclicB_spec (order : List Comment) (hacyc : acyclicB order = true) :
    ∀ i j, parentIdx order i = some j → descB order order.length i j = false := by
  intro i j hp
  have hi : i < order.length := parentIdx_src_lt order i j hp
  unfold acyclicB at hacyc
  rw [List.all_eq_true] at hacyc
  have := hacyc i (List.mem_range.mpr hi)
  rw [hp] at this
  simpa using this


theorem cycle_short_false (order : List Comment) (hacyc : acyclicB order = true) :
    ∀ v x, 1 ≤ v → v ≤ order.length → iterPar order v x = some x → False := by
  rintro v x h1 hn hcyc
  obtain ⟨u, rfl⟩ : ∃ u, v = u + 1 := ⟨v - 1, by omega⟩
  simp only [iterPar] at hcyc
  cases hp : parentIdx order x with
  | none => rw [hp] at hcyc; exact absurd hcyc (by simp)
  | some j =>
    rw [hp] at hcyc
    have hdesc : descB order order.length x j = true :=
      (descB_iff order order.length x j).mpr ⟨u, by omega, hcyc⟩
    rw [acyclicB_spec order hacyc x j hp] at hdesc
    exact absurd hdesc (by simp)

theorem chain_dies (order : List Comment) (hacyc : acyclicB order = true) :
    ∀ m, iterPar order (order.length + 1) m = none := by
  intro m
  by_contra h
  obtain ⟨x, v, h1, hn, hcyc⟩ := iterPar_all_some_cycle order m h
  exact cycle_short_false order hacyc v x h1 hn hcyc

theorem cycle_false (order : List Comment) (hacyc : acyclicB order = true) :
    ∀ v x, 1 ≤ v → iterPar order v x = some x → False := by
  intro v x h1 hcyc
  have hq : ∀ q, iterPar order (q * v) x = some x := by
    intro q
    induction q with
    | zero => simp [iterPar]
    | succ q ih =>
      rw [show (q + 1) * v = q * v + v by ring, iterPar_add, ih]
      exact hcyc
  have hbig : iterPar order ((order.length + 1) * v) x = some x := hq (order.length + 1)
  have hge : order.length + 1 ≤ (order.length + 1) * v := by
    calc order.length + 1 = (order.length + 1) * 1 := by ring
    _ ≤ (order.length + 1) * v := Nat.mul_le_mul_left _ h1
  have := iterPar_isSome_mono order (order.length + 1) ((order.length + 1) * v) x hge
    (by rw [hbig]; simp)
  exact this (chain_dies order hacyc x)

theorem descB_le_n (order : List Comment) (hacyc : acyclicB order = true)
    (fuel k m : Nat) (h : descB order fuel k m = true) :
    descB order order.length k m = true := by
  rcases (descB_iff order fuel k m).mp h with ⟨t, ht, hiter⟩
  rcases le_or_lt t order.length with hle | hgt
  · exact (descB_iff order order.length k m).mpr ⟨t, hle, hiter⟩
  · exact absurd (chain_dies order hacyc m)
      (iterPar_isSome_mono order (order.length + 1) t m (by omega) (by rw [hiter]; simp))

theorem last_step (order : List Comment) (t m k : Nat)
    (h : iterPar order (t + 1) m = some k) :
    ∃ c, iterPar order t m = some c ∧ parentIdx order c = some k := by
  rw [iterPar_add order t 1] at h
  cases hc : iterPar order t m with
  | none => rw [hc] at h; exact absurd h (by simp)
  | some c =>
    rw [hc] at h
    simp only [Option.some_bind] at h
    simp only [iterPar] at h
    cases hp : parentIdx order c with
    | none => rw [hp] at h; exact absurd h (by simp)
    | some j =>
      rw [hp] at h
      simp only [iterPar, Option.some.injEq] at h
      subst h
      exact ⟨c, rfl, hp⟩

theorem step_extend (order : List Comment) (t m c k : Nat)
    (hc : iterPar order t m = some c) (hp : parentIdx order c = some k) :
    iterPar order (t + 1) m = some k := by
  rw [iterPar_add order t 1, hc]
  simp [iterPar, hp]

theorem chain_det (order : List Comment) (s t m a b : Nat) (hst : s ≤ t)
    (ha : iterPar order s m = some a) (hb : iterPar order t m = some b) :
    iterPar order (t - s) a = some b := by
  rw [show t = s + (t - s) by omega, iterPar_add, ha] at hb
  simpa using hb

theorem children_unique_lt (order : List Comment) (hacyc : acyclicB order = true)
    (c c' k m u s : Nat) (hpc : parentIdx order c = some k) (hpc' : parentIdx order c' = some k)
    (hu : iterPar order u m = some c) (hs : iterPar order s m = some c') (hlt : u < s) : False := by
  have hdet := chain_det order u s m c c' (by omega) hu hs
  obtain ⟨w, hw⟩ : ∃ w, s - u = w + 1 := ⟨s - u - 1, by omega⟩
  rw [hw] at hdet
  simp only [iterPar] at hdet
  rw [hpc] at hdet
  -- chain from k reaches c' in w steps; parent of c' is k: cycle at c'
  have : iterPar order (w + 1) c' = some c' := by
    simp only [iterPar]
    rw [hpc']
    exact hdet
  exact cycle_false order hacyc (w + 1) c' (by omega) this

theorem children_unique (order : List Comment) (hacyc : acyclicB order = true)
    (c c' k m u s : Nat) (hpc : parentIdx order c = some k) (hpc' : parentIdx order c' = some k)
    (hu : iterPar order u m = some c) (hs : iterPar order s m = some c') : c = c' := by
  rcases Nat.lt_trichotomy u s with hlt | rfl | hgt
  · exact absurd (children_unique_lt order hacyc c c' k m u s hpc hpc' hu hs hlt) id
  · rw [hu] at hs; simpa using hs
  · exact absurd (children_unique_lt order hacyc c' c k m s u hpc' hpc hs hu hgt) id

theorem roots_unique (order : List Comment) (r r' m u s : Nat)
    (hr : parentIdx order r = none) (hr' : parentIdx order r' = none)
    (hu : iterPar order u m = some r) (hs : iterPar order s m = some r') : r = r' := by
  rcases Nat.lt_trichotomy u s with hlt | rfl | hgt
  · have hdet := chain_det order u s m r r' (by omega) hu hs
    obtain ⟨w, hw⟩ : ∃ w, s - u = w + 1 := ⟨s - u - 1, by omega⟩
    rw [hw] at hdet
    simp only [iterPar] at hdet
    rw [hr] at hdet
    exact absurd hdet (by simp)
  · rw [hu] at hs; simpa using hs
  · have hdet := chain_det order s u m r' r (by omega) hs hu
    obtain ⟨w, hw⟩ : ∃ w, u - s = w + 1 := ⟨u - s - 1, by omega⟩
    rw [hw] at hdet
    simp only [iterPar] at hdet
    rw [hr'] at hdet
    exact absurd hdet (by simp)

theorem chain_end (order : List Comment) :
    ∀ (T i : Nat), iterPar order T i = none →
      ∃ t x, t < T ∧ iterPar order t i = some x ∧ parentIdx order x = none := by
  intro T
  induction T with
  | zero => intro i h; simp [iterPar] at h
  | succ T ih =>
    intro i h
    simp only [iterPar] at h
    cases hp : parentIdx order i with
    | none => exact ⟨0, i, by omega, rfl, hp⟩
    | some j =>
      rw [hp] at h
      obtain ⟨t, x, ht, hiter, hend⟩ := ih j h
      exact ⟨t + 1, x, by omega, by simp [iterPar, hp, hiter], hend⟩


theorem count_flatMap (m : Nat) (l : List Nat) (f : Nat → List Nat) :
    List.count m (l.flatMap f) = (l.map (fun a => List.count m (f a))).sum := by
  induction l with
  | nil => rfl
  | cons a l ih =>
    rw [List.flatMap_cons, List.count_append, List.map_cons, List.sum_cons, ih]

theorem sum_map_eq_zero {l : List Nat} {f : Nat → Nat} (h : ∀ x ∈ l, f x = 0) :
    (l.map f).sum = 0 :=
  List.sum_eq_zero (by intro x hx; rcases List.mem_map.mp hx with ⟨a, ha, rfl⟩; exact h a ha)

theorem sum_map_eq_one {l : List Nat} {f : Nat → Nat} (hnd : l.Nodup) {c : Nat} (hc : c ∈ l)
    (hfc : f c = 1) (hother : ∀ x ∈ l, x ≠ c → f x = 0) : (l.map f).sum = 1 := by
  induction l with
  | nil => simp at hc
  | cons a l ih =>
    rw [List.map_cons, List.sum_cons]
    rcases List.mem_cons.mp hc with heq | hcl
    · have hfa : f a = 1 := heq ▸ hfc
      rw [hfa]
      have : ∀ x ∈ l, f x = 0 := by
        intro x hx
        have hne : x ≠ c := fun h => (List.nodup_cons.mp hnd).1 ((h.trans heq) ▸ hx)
        exact hother x (List.mem_cons_of_mem _ hx) hne
      rw [sum_map_eq_zero this]
    · have hne : a ≠ c := fun h => (List.nodup_cons.mp hnd).1 (h ▸ hcl)
      rw [hother a (List.mem_cons_self a l) hne]
      rw [ih (List.nodup_cons.mp hnd).2 hcl
        (fun x hx hne' => hother x (List.mem_cons_of_mem _ hx) hne')]

theorem childIdxs_nodup (order : List Comment) (k : Nat) : (childIdxs order k).Nodup :=
  (List.nodup_range order.length).filter _

theorem rootIdxs_nodup (order : List Comment) : (rootIdxs order).Nodup :=
  (List.nodup_range order.length).filter _

theorem count_dfsNode (order : List Comment) (hacyc : acyclicB order = true) :
    ∀ (fuel k m : Nat), List.count m (dfsNode order fuel k) =
      if descB order fuel k m = true then 1 else 0 := by
  intro fuel
  induction fuel with
  | zero =>
    intro k m
    simp only [dfsNode, descB]
    rw [List.count_singleton]
    by_cases h : m = k
    · subst h; simp
    · rw [if_neg (by simpa using Ne.symm h), if_neg (by simpa using h)]
  | succ fuel ih =>
    intro k m
    simp only [dfsNode]
    rw [List.count_cons, count_flatMap]
    have hmap : (childIdxs order k).map (fun c => List.count m (dfsNode order fuel c)) =
        (childIdxs order k).map (fun c => if descB order fuel c m = true then 1 else 0) :=
      List.map_congr_left (fun c _ => ih c m)
    rw [hmap]
    by_cases hmk : m = k
    · subst hmk
      have hzero : ∀ c ∈ childIdxs order m, (if descB order fuel c m = true then 1 else 0) = 0 := by
        intro c hcmem
        have hp : parentIdx order c = some m := (mem_childIdxs order c m).mp hcmem |>.2
        rw [if_neg ?_]
        intro hdesc
        have := descB_le_n order hacyc fuel c m hdesc
        rw [acyclicB_spec order hacyc c m hp] at this
        exact absurd this (by simp)
      rw [sum_map_eq_zero hzero]
      rw [if_pos (descB_self order (fuel + 1) m)]
      simp
    · rw [if_neg (by simpa using Ne.symm hmk)]
      by_cases hdesc : descB order (fuel + 1) k m = true
      · rw [if_pos hdesc]
        rcases (descB_iff order (fuel + 1) k m).mp hdesc with ⟨t, ht, hiter⟩
        obtain ⟨u, rfl⟩ : ∃ u, t = u + 1 := by
          refine ⟨t - 1, ?_⟩
          cases t with
          | zero => simp only [iterPar, Option.some.injEq] at hiter; exact absurd hiter hmk
          | succ t => omega
        obtain ⟨c, hcu, hpc⟩ := last_step order u m k hiter
        have hc_lt : c < order.length := parentIdx_src_lt order c k hpc
        have hcmem : c ∈ childIdxs order k := (mem_childIdxs order c k).mpr ⟨hc_lt, hpc⟩
        have hdc : descB order fuel c m = true :=
          (descB_iff order fuel c m).mpr ⟨u, by omega, hcu⟩
        refine sum_map_eq_one (childIdxs_nodup order k) hcmem (by rw [if_pos hdc]) ?_
        intro c' hc'mem hne
        have hpc' : parentIdx order c' = some k := (mem_childIdxs order c' k).mp hc'mem |>.2
        rw [if_neg ?_]
        intro hdc'
        rcases (descB_iff order fuel c' m).mp hdc' with ⟨s, hs, hcs⟩
        exact hne (children_unique order hacyc c' c k m s u hpc' hpc hcs hcu)
      · rw [if_neg hdesc]
        refine sum_map_eq_zero ?_
        intro c hcmem
        have hpc : parentIdx order c = some k := (mem_childIdxs order c k).mp hcmem |>.2
        rw [if_neg ?_]
        intro hdc
        rcases (descB_iff order fuel c m).mp hdc with ⟨s, hs, hcs⟩
        exact hdesc ((descB_iff order (fuel + 1) k m).mpr
          ⟨s + 1, by omega, step_extend order s m c k hcs hpc⟩)


theorem count_roots_flatMap (order : List Comment) (hacyc : acyclicB order = true) (m : Nat) :
    List.count m ((rootIdxs order).flatMap (fun r => dfsNode order order.length r)) =
      if m < order.length then 1 else 0 := by
  rw [count_flatMap]
  have hmap : (rootIdxs order).map (fun r => List.count m (dfsNode order order.length r)) =
      (rootIdxs order).map (fun r => if descB order order.length r m = true then 1 else 0) :=
    List.map_congr_left (fun r _ => count_dfsNode order hacyc order.length r m)
  rw [hmap]
  by_cases hm : m < order.length
  · rw [if_pos hm]
    obtain ⟨t, x, ht, hiter, hend⟩ := chain_end order (order.length + 1) m (chain_dies order hacyc m)
    have hx_lt : x < order.length := by
      cases t with
      | zero => simp only [iterPar, Option.some.injEq] at hiter; omega
      | succ u => exact iterPar_lt order u m x hiter
    have hxroot : x ∈ rootIdxs order := (mem_rootIdxs order x).mpr ⟨hx_lt, hend⟩
    have hdx : descB order order.length x m = true :=
      (descB_iff order order.length x m).mpr ⟨t, by omega, hiter⟩
    refine sum_map_eq_one (rootIdxs_nodup order) hxroot (by rw [if_pos hdx]) ?_
    intro r' hr'mem hne
    have hr'root : parentIdx order r' = none := (mem_rootIdxs order r').mp hr'mem |>.2
    rw [if_neg ?_]
    intro hdr'
    rcases (descB_iff order order.length r' m).mp hdr' with ⟨s, hs, hcs⟩
    exact hne (roots_unique order r' x m s t hr'root hend hcs hiter)
  · rw [if_neg hm]
    refine sum_map_eq_zero ?_
    intro r hrmem
    have hr_lt : r < order.length := (mem_rootIdxs order r).mp hrmem |>.1
    rw [if_neg ?_]
    intro hdr
    rcases (descB_iff order order.length r m).mp hdr with ⟨t, ht, hiter⟩
    cases t with
    | zero =>
      simp only [iterPar, Option.some.injEq] at hiter
      omega
    | succ u =>
      rw [show u + 1 = 1 + u by omega, iterPar_add] at hiter
      have : iterPar order 1 m = none := by
        simp [iterPar, parentIdx_of_ge order m (by omega)]
      rw [this] at hiter
      exact absurd hiter (by simp)

theorem map_getD_range (l : List Comment) (d : Comment) :
    (List.range l.length).map (fun i => l.getD i d) = l := by
  induction l with
  | nil => rfl
  | cons a t ih =>
    rw [List.length_cons, List.range_succ_eq_map, List.map_cons, List.map_map]
    have h0 : (a :: t).getD 0 d = a := rfl
    rw [h0]
    congr 1

theorem dfsForest_perm (comments : List Comment) (filterLower : String)
    (hacyc : acyclicB (filteredComments comments filterLower) = true) :
    (dfsForest (buildCommentTree comments filterLower)).Perm
      (List.range (filteredComments comments filterLower).length) := by
  rw [List.perm_iff_count]
  intro m
  have h1 : dfsForest (buildCommentTree comments filterLower) =
      (rootIdxs (filteredComments comments filterLower)).flatMap
        (fun r => dfsNode (filteredComments comments filterLower)
          (filteredComments comments filterLower).length r) := rfl
  rw [h1, count_roots_flatMap _ hacyc m]
  by_cases hm : m < (filteredComments comments filterLower).length
  · rw [if_pos hm,
      (List.count_eq_one_of_mem (List.nodup_range _) (List.mem_range.mpr hm)).symm]
  · have h0 : List.count m (List.range (filteredComments comments filterLower).length) = 0 :=
      List.count_eq_zero_of_not_mem (fun hmem => hm (List.mem_range.mp hmem))
    rw [if_neg hm, h0]

/-- C1 (amended): whenever no surviving record lies on a resolved-parent
cycle (in particular no record is self-referential), the depth-first
pre-order traversal of the forest returned by `buildCommentTree` visits
exactly the records that survive the filter, with no duplicates and no
omissions — including child-before-parent (forward-referencing) inputs —
and root order and every sibling order follow input order; the full
traversal order, however, is pre-order, not input order. -/
theorem c1_amended_traversal (comments : List Comment) (filterLower : String)
    (hacyc : acyclicB (filteredComments comments filterLower) = true) :
    (preorderComments comments filterLower).Perm (filteredComments comments filterLower) ∧
      (buildCommentTree comments filterLower).roots.Pairwise (· < ·) ∧
      ∀ k, ((buildCommentTree comments filterLower).children k).Pairwise (· < ·) := by
  refine ⟨?_, ?_, ?_⟩
  · have hperm := dfsForest_perm comments filterLower hacyc
    have := hperm.map (fun i => (filteredComments comments filterLower).getD i defaultComment)
    rw [map_getD_range] at this
    exact this
  · exact (List.pairwise_lt_range _).filter _
  · intro k
    exact (List.pairwise_lt_range _).filter _


/-- Counterexample to C1 as stated: on `c1Input` (all four records survive
the empty filter) the traversal visits `a, c, b` — the self-referential
record `d` is omitted and `c` is visited before the earlier record `b` —
so the traversal is not the filtered record sequence in input order. -/
theorem c1_counterexample : preorderComments c1Input "" ≠ filteredComments c1Input "" := by
  decide

/-- Witness for C1 (amended) on a forward-referencing input: the child
`b` precedes its parent `a`, the parent map is acyclic, and the traversal
is a permutation of the survivors with ordered roots and siblings. -/
theorem c1_witness :
    acyclicB (filteredComments
        [(⟨"b", "u", "two", 2, "", 0, 0, "a"⟩ : Comment), ⟨"a", "u", "one", 1, "", 0, 0, ""⟩] "") =
      true ∧
    (preorderComments [(⟨"b", "u", "two", 2, "", 0, 0, "a"⟩ : Comment),
        ⟨"a", "u", "one", 1, "", 0, 0, ""⟩] "").Perm
      (filteredComments [(⟨"b", "u", "two", 2, "", 0, 0, "a"⟩ : Comment),
        ⟨"a", "u", "one", 1, "", 0, 0, ""⟩] "") :=
  ⟨by decide,
    (c1_amended_traversal [(⟨"b", "u", "two", 2, "", 0, 0, "a"⟩ : Comment),
      ⟨"a", "u", "one", 1, "", 0, 0, ""⟩] "" (by decide)).1⟩

end RSC
